import Mathlib

/-!
Verification of the OpenCaption chunked-transcription and caption-assembly
pipeline (src/main.go) against its design specification.

Shallow embedding conventions:
* Go strings are modelled as `List Char` (`Str`); Go `len` is `List.length`.
* Go `float32`/`float64` times are modelled as `ℚ` (exact arithmetic); the
  decimal constants 0.6 and 0.2 become `3/5` and `1/5`.
* Go slices of PCM samples are `List ℚ`; a sub-slice `pcm[a:b]` is
  `(pcm.drop a).take (b - a)`.
* The external whisper engine is an abstract function argument; the
  `transcribe` post-processing (trim, drop empties) that lives in main.go is
  embedded as `transcribePost`.
* Fallible configuration checking in `main` is embedded as `Except`.
-/

abbrev Str := List Char

/-- Model of Go `strings.TrimSpace` (main.go uses it on segment and cue
text): drop whitespace from both ends. -/
def trimSpace (s : Str) : Str :=
  ((s.dropWhile (fun c => c.isWhitespace)).reverse.dropWhile
    (fun c => c.isWhitespace)).reverse

/-- Accumulator-style model of Go `strings.Fields`: split on runs of
whitespace, producing the non-empty maximal whitespace-free words.
`acc` is the word currently being read. -/
def fieldsAux : Str → Str → List Str
  | [], acc => if acc = [] then [] else [acc]
  | c :: cs, acc =>
    if c.isWhitespace then
      if acc = [] then fieldsAux cs [] else acc :: fieldsAux cs []
    else fieldsAux cs (acc ++ [c])

/-- main.go `fieldsPreservePunct`: just `strings.Fields` (split on
whitespace only, punctuation stays attached to words). -/
def fieldsPreservePunct (s : Str) : List Str :=
  fieldsAux s []

/-- Model of Go `strings.Join(words, " ")`. -/
def joinWords : List Str → Str
  | [] => []
  | [w] => w
  | w :: ws => w ++ ' ' :: joinWords ws

/-- Model of Go `strings.LastIndex(s, " ")`: byte index of the last space,
or -1 when there is none. -/
def lastIndexSpace : Str → ℤ
  | [] => -1
  | c :: cs =>
    let r := lastIndexSpace cs
    if 0 ≤ r then r + 1 else if c = ' ' then 0 else -1

/-- main.go `softTruncate`: if `s` fits in `max` return it; otherwise cut
at the last space before byte `max` when one exists at a positive index,
else hard-cut at `max`. -/
def softTruncate (s : Str) (max : ℕ) : Str :=
  if s.length ≤ max then s
  else if 0 < lastIndexSpace (s.take max) then
    s.take (lastIndexSpace (s.take max)).toNat
  else s.take max

/-- Loop body of main.go `wordsJoinRemaining`: scan `all` with a `found`
flag; the first element equal (by value) to `frm` flips the flag and is
skipped, everything after it is collected. -/
def wjrAux : List Str → Str → Bool → List Str
  | [], _, _ => []
  | w :: ws, frm, found =>
    if !found && w = frm then wjrAux ws frm true
    else if found then w :: wjrAux ws frm found
    else wjrAux ws frm false

/-- main.go `wordsJoinRemaining(all, from)`. -/
def wordsJoinRemaining (all : List Str) (frm : Str) : List Str :=
  wjrAux all frm false

/-- Loop of main.go `wrapWords`: `remaining` is the unconsumed suffix of
the word list, `lines` the completed lines, `curr` the line being built.
The guard `lines.length + 1 = maxLines` is Go's `len(lines) == maxLines-1`
(equivalent for every non-negative `maxLines`). -/
def wrapAux (allWords : List Str) (maxChars maxLines : ℕ) :
    List Str → List Str → Str → List Str
  | [], lines, curr =>
    let lines' := if curr = [] then lines else lines ++ [curr]
    if maxLines < lines'.length then lines'.take maxLines else lines'
  | w :: ws, lines, curr =>
    if curr = [] then wrapAux allWords maxChars maxLines ws lines w
    else if curr.length + 1 + w.length ≤ maxChars then
      wrapAux allWords maxChars maxLines ws lines (curr ++ ' ' :: w)
    else
      let lines' := lines ++ [curr]
      if lines'.length + 1 = maxLines then
        let rest := joinWords (wordsJoinRemaining allWords w)
        let lines'' :=
          if rest = [] then lines'
          else lines' ++
            [softTruncate (if 0 < w.length then w ++ ' ' :: rest else w) maxChars]
        if maxLines < lines''.length then lines''.take maxLines else lines''
      else wrapAux allWords maxChars maxLines ws lines' w

/-- main.go `wrapWords(s, maxChars, maxLines)`. -/
def wrapWords (s : Str) (maxChars maxLines : ℕ) : List Str :=
  wrapAux (fieldsPreservePunct s) maxChars maxLines (fieldsPreservePunct s) [] []

/-- Whisper segment as used by main.go: times in seconds, text. -/
structure Segment where
  Start : ℚ
  End : ℚ
  Text : Str
deriving DecidableEq

/-- main.go `Cue`. -/
structure Cue where
  Idx : ℕ
  Start : ℚ
  End : ℚ
  Lines : List Str
  RawText : Str
deriving DecidableEq

/-- Cue-building loop of main.go `segmentsToCues`: wrap each segment's
text; segments wrapping to zero lines produce no cue; `idx` counts the
cues actually produced, starting at 1. -/
def segToCueAux (maxChars maxLines : ℕ) : List Segment → ℕ → List Cue
  | [], _ => []
  | s :: rest, idx =>
    let lines := wrapWords s.Text maxChars maxLines
    if lines = [] then segToCueAux maxChars maxLines rest idx
    else ⟨idx, s.Start, s.End, lines, s.Text⟩ :: segToCueAux maxChars maxLines rest (idx + 1)

/-- Loop of main.go `mergeShortCues`: left-to-right single pass; a cue of
duration `≥ minDur`, or the last cue, is kept; otherwise it is merged with
the next cue (which is then skipped: `i++`).  Note the Go code re-wraps the
merged text with the literal constants 42 and 2, not with the pipeline's
configured `maxChars`/`maxLines`. -/
def mergePass (minDur : ℚ) : List Cue → List Cue
  | [] => []
  | [c] => [c]
  | c :: next :: rest =>
    if minDur ≤ c.End - c.Start then c :: mergePass minDur (next :: rest)
    else
      ⟨c.Idx, c.Start, next.End,
        wrapWords (trimSpace (c.RawText ++ ' ' :: next.RawText)) 42 2,
        trimSpace (c.RawText ++ ' ' :: next.RawText)⟩ :: mergePass minDur rest

/-- Reindexing loop at the end of main.go `mergeShortCues`:
`out[i].Idx = i + 1`. -/
def reindexAux : List Cue → ℕ → List Cue
  | [], _ => []
  | c :: cs, i => ⟨i + 1, c.Start, c.End, c.Lines, c.RawText⟩ :: reindexAux cs (i + 1)

/-- main.go `mergeShortCues(cues, minDur)`: lists shorter than 2 are
returned unchanged (without reindexing); otherwise one merge pass followed
by sequential reindexing from 1. -/
def mergeShortCues (cues : List Cue) (minDur : ℚ) : List Cue :=
  if cues.length < 2 then cues else reindexAux (mergePass minDur cues) 0

/-- main.go `segmentsToCues(segs, maxChars, maxLines)`: build cues with
1-based indices, then merge cues shorter than 0.6 s (= 3/5). -/
def segmentsToCues (segs : List Segment) (maxChars maxLines : ℕ) : List Cue :=
  mergeShortCues (segToCueAux maxChars maxLines segs 1) (3 / 5)

/-- Loop of main.go `dedupeOverlap`: `prev` is the last kept segment; a
candidate whose trimmed text equals `prev`'s trimmed text and whose start
is within `overlap + 0.2` (= `overlap + 1/5`) of `prev`'s start is dropped. -/
def dedupeAux (overlap : ℚ) (prev : Segment) : List Segment → List Segment
  | [] => []
  | cur :: rest =>
    if trimSpace prev.Text = trimSpace cur.Text ∧
        |prev.Start - cur.Start| < overlap + 1 / 5 then
      dedupeAux overlap prev rest
    else cur :: dedupeAux overlap cur rest

/-- main.go `dedupeOverlap(segs, overlap)`: lists shorter than 2 are
returned unchanged; otherwise the first segment is always kept and the
rest is scanned with `dedupeAux`. -/
def dedupeOverlap (segs : List Segment) (overlap : ℚ) : List Segment :=
  match segs with
  | [] => []
  | [s] => [s]
  | s :: rest => s :: dedupeAux overlap s rest

/-- Loop of main.go `chunkPCM` for `win > 0`: emit `pcm[start:start+win]`
(clipped to the buffer end) and stop as soon as a chunk reaches the buffer
end; otherwise advance by `stride = win - ovl`.  The `0 < stride` guard
records the progress condition Go needs for this loop to terminate (main.go
only reaches the loop with `win > ovl`). -/
def chunkLoop (pcm : List ℚ) (win stride : ℕ) (start : ℕ) : List (List ℚ) :=
  if _h : 0 < stride ∧ start < pcm.length then
    ((pcm.drop start).take win) ::
      (if pcm.length ≤ start + win then []
       else chunkLoop pcm win stride (start + stride))
  else []
termination_by pcm.length - start
decreasing_by omega

/-- main.go `chunkPCM(pcm, sr, windowSec, overlapSec)`: `win ≤ 0` returns
the whole buffer as a single chunk; otherwise the windowing loop. -/
def chunkPCM (pcm : List ℚ) (sr windowSec overlapSec : ℤ) : List (List ℚ) :=
  let win := windowSec * sr
  let ovl := overlapSec * sr
  if win ≤ 0 then [pcm]
  else chunkLoop pcm win.toNat (win - ovl).toNat 0

/-- Segment post-processing inside main.go `transcribe`'s `ForEachSegment`
callback: trim each segment's text and drop segments whose trimmed text is
empty. -/
def transcribePost (raw : List Segment) : List Segment :=
  raw.filterMap (fun s =>
    if trimSpace s.Text = [] then none
    else some ⟨s.Start, s.End, trimSpace s.Text⟩)

/-- Timestamp-rebasing loop of main.go `main` (chunked branch): shift every
segment of the current chunk by the running `offset`, append, and advance
`offset` by `stride = windowSec - overlapSec`. -/
def rebaseAux (stride : ℚ) : List (List Segment) → ℚ → List Segment
  | [], _ => []
  | cs :: rest, offset =>
    cs.map (fun s => ⟨s.Start + offset, s.End + offset, s.Text⟩) ++
      rebaseAux stride rest (offset + stride)

/-- The whole rebasing phase of main.go `main`: offset starts at 0. -/
def rebaseChunks (outs : List (List Segment)) (stride : ℚ) : List Segment :=
  rebaseAux stride outs 0

/-- Pipeline control flow of main.go `main` (lines 74-107), with the
external engine abstracted as a function from a PCM chunk to raw segments:
whole-file mode when `windowSec ≤ 0` (no chunking, no dedupe); otherwise
the `win <= ovl` configuration check precedes any transcription, then
chunking, per-chunk transcription, rebasing and overlap-dedupe. -/
def runPipeline (windowSec overlapSec : ℤ) (maxChars maxLines : ℕ)
    (pcm : List ℚ) (engine : List ℚ → List Segment) : Except Str (List Cue) :=
  if windowSec ≤ 0 then
    Except.ok (segmentsToCues (transcribePost (engine pcm)) maxChars maxLines)
  else if windowSec ≤ overlapSec then
    Except.error (("window must be > overlap").toList)
  else
    Except.ok (segmentsToCues
      (dedupeOverlap
        (rebaseChunks
          ((chunkPCM pcm 16000 windowSec overlapSec).map
            (fun c => transcribePost (engine c)))
          ((windowSec : ℚ) - (overlapSec : ℚ)))
        (overlapSec : ℚ))
      maxChars maxLines)

/-- Decimal digit character, for the `fmt` integer formatting model. -/
def digitChar (n : ℕ) : Char := Char.ofNat (48 + n)

/-- Fuel-driven decimal rendering of a natural number. -/
def natDigitsAux : ℕ → ℕ → Str
  | 0, _ => []
  | fuel + 1, n =>
    if n < 10 then [digitChar n]
    else natDigitsAux fuel (n / 10) ++ [digitChar (n % 10)]

/-- Model of Go `fmt` `%d` for a natural number. -/
def natDigits (n : ℕ) : Str := natDigitsAux (n + 1) n

/-- Zero padding to width `w`, as in `%02d` / `%06.3f`. -/
def padZeros (w : ℕ) (s : Str) : Str := List.replicate (w - s.length) '0' ++ s

/-- main.go `tsVTT(t)`: `%02d:%02d:%06.3f` with `h = int(t)/3600`,
`m = (int(t)%3600)/60`, `s = t - (h*3600 + m*60)`.  The fractional second
is modelled by rounding `s * 1000` to the nearest millisecond. -/
def tsVTT (t : ℚ) : Str :=
  let total : ℕ := (⌊t⌋).toNat
  let h := total / 3600
  let m := total % 3600 / 60
  let ms := (round ((t - ((h : ℚ) * 3600 + (m : ℚ) * 60)) * 1000)).toNat
  padZeros 2 (natDigits h) ++ ':' :: padZeros 2 (natDigits m) ++ ':' ::
    padZeros 2 (natDigits (ms / 1000)) ++ '.' :: padZeros 3 (natDigits (ms % 1000))

/-- main.go `tsSRT(t)`: `tsVTT` with every '.' replaced by ','. -/
def tsSRT (t : ℚ) : Str :=
  (tsVTT t).map (fun c => if c = '.' then ',' else c)

/-- One cue's output block in main.go `writeVTT`: timestamp line, the
wrapped lines, and a blank separator line; no cue index. -/
def cueBlockVTT (c : Cue) : Str :=
  tsVTT c.Start ++ (" --> ").toList ++ tsVTT c.End ++ '\n' ::
    ((c.Lines.map (fun l => l ++ ['\n'])).flatten ++ ['\n'])

/-- main.go `writeVTT`: `fmt.Fprintln(w, "WEBVTT\n")` emits the literal
header plus a blank line, then the cue blocks. -/
def writeVTT (cues : List Cue) : Str :=
  ("WEBVTT\n\n").toList ++ (cues.map cueBlockVTT).flatten

/-- One cue's output block in main.go `writeSRT`: the cue's index on its
own line, timestamp line with comma decimals, wrapped lines, blank line. -/
def cueBlockSRT (c : Cue) : Str :=
  natDigits c.Idx ++ '\n' ::
    (tsSRT c.Start ++ (" --> ").toList ++ tsSRT c.End ++ '\n' ::
      ((c.Lines.map (fun l => l ++ ['\n'])).flatten ++ ['\n']))

/-- main.go `writeSRT`. -/
def writeSRT (cues : List Cue) : Str :=
  (cues.map cueBlockSRT).flatten

/-- Stated from the C3 claim text: scanning left to right with a running
last-kept segment, a candidate is dropped iff its trimmed text equals the
last-kept segment's trimmed text and the absolute difference of their
starts is below `overlapSeconds + 0.2`; the first segment is never dropped. -/
def dedupeSpecAux (overlap : ℚ) (lastKept : Segment) : List Segment → List Segment
  | [] => []
  | c :: rest =>
    if trimSpace c.Text = trimSpace lastKept.Text ∧
        |c.Start - lastKept.Start| < overlap + 1 / 5 then
      dedupeSpecAux overlap lastKept rest
    else c :: dedupeSpecAux overlap c rest

/-- Stated from the C3 claim text, top level: the first segment is kept and
becomes the initial last-kept segment. -/
def dedupeOverlapSpec (segs : List Segment) (overlap : ℚ) : List Segment :=
  match segs with
  | [] => []
  | s :: rest => s :: dedupeSpecAux overlap s rest

/-- Stated from the C5 claim text: chunk `i`'s segments are each shifted by
exactly `i * stride`, and the global list is the concatenation of the
per-chunk lists in chunk order. -/
def rebasedSpec (stride : ℚ) : List (List Segment) → ℕ → List Segment
  | [], _ => []
  | cs :: rest, i =>
    cs.map (fun s => ⟨s.Start + i * stride, s.End + i * stride, s.Text⟩) ++
      rebasedSpec stride rest (i + 1)

/-- Stated from the amended C2 claim text: single left-to-right pass; a cue
of duration below 0.6 s that is not the last cue is merged with the next
cue - merged start is the short cue's start, merged end is the next cue's
end, merged raw text is the whitespace-trimmed join of the two raw texts
with a single space, and the display lines are re-wrapped with the fixed
default budget `maxChars = 42`, `maxLines = 2` regardless of the pipeline's
configured values; the freshly merged cue is not re-checked in the same
pass. -/
def mergeSpecStep : List Cue → List Cue
  | [] => []
  | [c] => [c]
  | c :: next :: rest =>
    if c.End - c.Start < 3 / 5 then
      ⟨c.Idx, c.Start, next.End,
        wrapWords (trimSpace (c.RawText ++ ' ' :: next.RawText)) 42 2,
        trimSpace (c.RawText ++ ' ' :: next.RawText)⟩ :: mergeSpecStep rest
    else c :: mergeSpecStep (next :: rest)

/-- Stated from the amended C2 claim text: after the pass, indices are
reassigned sequentially from 1; a list with fewer than two cues is
returned unchanged. -/
def mergeShortCuesSpec (cues : List Cue) : List Cue :=
  if cues.length < 2 then cues else reindexAux (mergeSpecStep cues) 0

/-! ## Helper lemmas -/

lemma getLast?_cons_ne {α : Type} (a : α) (l : List α) (h : l ≠ []) :
    (a :: l).getLast? = l.getLast? := by
  cases l with
  | nil => exact absurd rfl h
  | cons b l' => exact List.getLast?_cons_cons

lemma dedupeAux_eq_spec (ovl : ℚ) :
    ∀ (l : List Segment) (prev : Segment), dedupeAux ovl prev l = dedupeSpecAux ovl prev l
  | [], _ => rfl
  | cur :: rest, prev => by
    have hiff : (trimSpace prev.Text = trimSpace cur.Text ∧
          |prev.Start - cur.Start| < ovl + 1 / 5)
        ↔ (trimSpace cur.Text = trimSpace prev.Text ∧
          |cur.Start - prev.Start| < ovl + 1 / 5) := by
      rw [abs_sub_comm, eq_comm]
    simp only [dedupeAux, dedupeSpecAux]
    by_cases h : trimSpace prev.Text = trimSpace cur.Text ∧
        |prev.Start - cur.Start| < ovl + 1 / 5
    · rw [if_pos h, if_pos (hiff.mp h)]
      exact dedupeAux_eq_spec ovl rest prev
    · rw [if_neg h, if_neg (fun hc => h (hiff.mpr hc))]
      exact congrArg _ (dedupeAux_eq_spec ovl rest cur)

lemma dedupeAux_sublist (ovl : ℚ) :
    ∀ (l : List Segment) (prev : Segment), List.Sublist (dedupeAux ovl prev l) l
  | [], _ => List.Sublist.slnil
  | cur :: rest, prev => by
    simp only [dedupeAux]
    by_cases h : trimSpace prev.Text = trimSpace cur.Text ∧
        |prev.Start - cur.Start| < ovl + 1 / 5
    · rw [if_pos h]
      exact (dedupeAux_sublist ovl rest prev).cons cur
    · rw [if_neg h]
      exact (dedupeAux_sublist ovl rest cur).cons₂ cur

lemma rebaseAux_spec (stride : ℚ) :
    ∀ (outs : List (List Segment)) (i : ℕ),
      rebaseAux stride outs ((i : ℚ) * stride) = rebasedSpec stride outs i
  | [], _ => rfl
  | cs :: rest, i => by
    simp only [rebaseAux, rebasedSpec]
    have hoff : ((i : ℚ) * stride + stride) = (((i + 1 : ℕ) : ℚ) * stride) := by
      push_cast
      ring
    rw [hoff, rebaseAux_spec stride rest (i + 1)]

/-! ## Claim theorems (part 1) -/

/-- C1: the word-wrap remainder rule fails on the code.  The claim says
that once `maxLines - 1` lines are complete, all remaining words are
joined (each exactly once, in order) into one final line.  On input
"ab cd" with `maxChars = 2`, `maxLines = 2`, the remaining word "cd"
should become the final line, but `wordsJoinRemaining` looks the overflow
word up by value and finds nothing after it, so the code silently drops
"cd" and returns just ["ab"].  This theorem evaluates the embedded code at
that failing input. -/
theorem C1_wrapWords_remainder_dropped :
    wrapWords (("ab cd").toList) 2 2 = [("ab").toList] := by decide

/-- C3: the overlap-deduplication rule.  The code's `dedupeOverlap` agrees
with the claim's keep-last scan (drop iff trimmed texts equal and start
difference below `overlapSeconds + 0.2`), the retained segments form a
sublist of the input (original order preserved), and the first segment is
never dropped. -/
theorem C3_dedupe_rule (segs : List Segment) (overlap : ℚ) :
    dedupeOverlap segs overlap = dedupeOverlapSpec segs overlap ∧
    List.Sublist (dedupeOverlap segs overlap) segs ∧
    (dedupeOverlap segs overlap).head? = segs.head? := by
  refine ⟨?_, ?_, ?_⟩
  · cases segs with
    | nil => rfl
    | cons s rest =>
      cases rest with
      | nil => rfl
      | cons b l =>
        simp only [dedupeOverlap, dedupeOverlapSpec]
        rw [dedupeAux_eq_spec]
  · cases segs with
    | nil => exact List.Sublist.slnil
    | cons s rest =>
      cases rest with
      | nil => simp [dedupeOverlap]
      | cons b l =>
        simp only [dedupeOverlap]
        exact (dedupeAux_sublist overlap (b :: l) s).cons₂ s
  · cases segs with
    | nil => rfl
    | cons s rest =>
      cases rest with
      | nil => rfl
      | cons b l => rfl

/-- C5: timestamp re-basing.  The re-basing loop of `main` (offset starts
at 0 and is advanced by `stride = windowSeconds - overlapSeconds` after
each chunk) produces exactly the claim's description: chunk `i`'s segments
each shifted by `i * stride`, concatenated in chunk order. -/
theorem C5_rebase (outs : List (List Segment)) (stride : ℚ) :
    rebaseChunks outs stride = rebasedSpec stride outs 0 := by
  have h0 : (0 : ℚ) = ((0 : ℕ) : ℚ) * stride := by norm_num
  rw [rebaseChunks, h0, rebaseAux_spec]

/-! ## Index and merge lemmas -/

lemma range'_succ_one (s n : ℕ) : List.range' s (n + 1) = s :: List.range' (s + 1) n := rfl

lemma segToCueAux_idx (mc ml : ℕ) :
    ∀ (segs : List Segment) (i : ℕ),
      (segToCueAux mc ml segs i).map Cue.Idx
        = List.range' i (segToCueAux mc ml segs i).length
  | [], _ => rfl
  | s :: rest, i => by
    simp only [segToCueAux]
    by_cases h : wrapWords s.Text mc ml = []
    · rw [if_pos h]
      exact segToCueAux_idx mc ml rest i
    · rw [if_neg h]
      simp only [List.map_cons, List.length_cons, range'_succ_one]
      rw [segToCueAux_idx mc ml rest (i + 1)]

lemma reindexAux_idx :
    ∀ (cues : List Cue) (i : ℕ),
      (reindexAux cues i).map Cue.Idx = List.range' (i + 1) cues.length
  | [], _ => rfl
  | c :: cs, i => by
    simp only [reindexAux, List.map_cons, List.length_cons, range'_succ_one]
    rw [reindexAux_idx cs (i + 1)]

lemma reindexAux_length :
    ∀ (cues : List Cue) (i : ℕ), (reindexAux cues i).length = cues.length
  | [], _ => rfl
  | c :: cs, i => by
    simp only [reindexAux, List.length_cons]
    rw [reindexAux_length cs (i + 1)]

lemma mergePass_ne_nil (d : ℚ) (l : List Cue) (h : l ≠ []) : mergePass d l ≠ [] := by
  cases l with
  | nil => exact absurd rfl h
  | cons c rest =>
    cases rest with
    | nil => simp [mergePass]
    | cons next rest' =>
      simp only [mergePass]
      by_cases hd : d ≤ c.End - c.Start
      · rw [if_pos hd]
        exact List.cons_ne_nil _ _
      · rw [if_neg hd]
        exact List.cons_ne_nil _ _

lemma mergePass_head (d : ℚ) (l : List Cue) :
    (mergePass d l).head?.map Cue.Start = l.head?.map Cue.Start := by
  cases l with
  | nil => rfl
  | cons c rest =>
    cases rest with
    | nil => rfl
    | cons next rest' =>
      simp only [mergePass]
      by_cases hd : d ≤ c.End - c.Start
      · rw [if_pos hd]
        rfl
      · rw [if_neg hd]
        rfl

lemma mergePass_last (d : ℚ) :
    ∀ l : List Cue, (mergePass d l).getLast?.map Cue.End = l.getLast?.map Cue.End := by
  intro l
  induction l using mergePass.induct d with
  | case1 => rfl
  | case2 c => rfl
  | case3 c next rest hd ih =>
    simp only [mergePass, if_pos hd]
    rw [getLast?_cons_ne _ _ (mergePass_ne_nil d _ (List.cons_ne_nil _ _)), ih,
      List.getLast?_cons_cons]
  | case4 c next rest hd ih =>
    simp only [mergePass, if_neg hd]
    cases rest with
    | nil => rfl
    | cons r rest' =>
      rw [getLast?_cons_ne _ _ (mergePass_ne_nil d _ (List.cons_ne_nil _ _)), ih,
        List.getLast?_cons_cons, List.getLast?_cons_cons]

lemma reindexAux_ne_nil (cues : List Cue) (i : ℕ) (h : cues ≠ []) :
    reindexAux cues i ≠ [] := by
  cases cues with
  | nil => exact absurd rfl h
  | cons c cs => exact List.cons_ne_nil _ _

lemma reindexAux_head (cues : List Cue) (i : ℕ) :
    (reindexAux cues i).head?.map Cue.Start = cues.head?.map Cue.Start := by
  cases cues with
  | nil => rfl
  | cons c cs => rfl

lemma reindexAux_last :
    ∀ (cues : List Cue) (i : ℕ),
      (reindexAux cues i).getLast?.map Cue.End = cues.getLast?.map Cue.End
  | [], _ => rfl
  | [c], i => rfl
  | c :: b :: cs, i => by
    simp only [reindexAux]
    rw [List.getLast?_cons_cons, List.getLast?_cons_cons]
    exact reindexAux_last (b :: cs) (i + 1)

/-! ## Claim theorems (part 2) -/

/-- C9: after cue building and the short-cue merge pass the cue indices
are exactly 1, 2, ..., n in output order, for every segment list and
configuration (including the zero- and one-cue cases, which skip the
reindexing loop but were built with indices starting at 1). -/
theorem C9_index_contiguity (segs : List Segment) (mc ml : ℕ) :
    (segmentsToCues segs mc ml).map Cue.Idx
      = List.range' 1 (segmentsToCues segs mc ml).length := by
  simp only [segmentsToCues, mergeShortCues]
  by_cases h : (segToCueAux mc ml segs 1).length < 2
  · rw [if_pos h]
    exact segToCueAux_idx mc ml segs 1
  · rw [if_neg h]
    rw [reindexAux_idx, reindexAux_length]

/-- C10: the merge pass preserves the covered time span: the output is
empty only when the input is, the first output cue keeps the first input
cue's start, and the last output cue keeps the last input cue's end (for
any merge threshold, in particular the pipeline's 0.6 s). -/
theorem C10_merge_preserves_span (cues : List Cue) (minDur : ℚ) :
    (mergeShortCues cues minDur = [] ↔ cues = []) ∧
    (mergeShortCues cues minDur).head?.map Cue.Start = cues.head?.map Cue.Start ∧
    (mergeShortCues cues minDur).getLast?.map Cue.End = cues.getLast?.map Cue.End := by
  simp only [mergeShortCues]
  by_cases h : cues.length < 2
  · rw [if_pos h]
    exact ⟨Iff.rfl, rfl, rfl⟩
  · rw [if_neg h]
    have hne : cues ≠ [] := by
      intro hc
      rw [hc] at h
      simp at h
    refine ⟨?_, ?_, ?_⟩
    · constructor
      · intro hc
        exact absurd hc (reindexAux_ne_nil _ 0 (mergePass_ne_nil minDur cues hne))
      · intro hc
        exact absurd hc hne
    · rw [reindexAux_head, mergePass_head]
    · rw [reindexAux_last, mergePass_last]

/-! ## C2: merge rule -/

lemma mergePass_eq_spec : ∀ l : List Cue, mergePass (3 / 5) l = mergeSpecStep l := by
  intro l
  induction l using mergePass.induct (3 / 5) with
  | case1 => rfl
  | case2 c => rfl
  | case3 c next rest hd ih =>
    simp only [mergePass, if_pos hd, mergeSpecStep, if_neg (not_lt.mpr hd)]
    rw [ih]
  | case4 c next rest hd ih =>
    simp only [mergePass, if_neg hd, mergeSpecStep, if_pos (lt_of_not_le hd)]
    rw [ih]

/-- C2 counterexample: the claim says a merged cue's display lines are
re-wrapped with the maxChars/maxLines values the pipeline was configured
with.  With configuration maxChars = 5, maxLines = 3 and segments
("aa bb", 0 - 0.5 s) and ("cc", 0.5 s - 2 s), the first cue is short and
merges with the second; the code re-wraps the joined text "aa bb cc" with
the hardcoded constants 42 and 2, giving the single line "aa bb cc",
whereas the configured wrap of the same text gives ["aa bb", "cc"]. -/
theorem C2_counterexample :
    (segmentsToCues [⟨0, 1 / 2, ("aa bb").toList⟩, ⟨1 / 2, 2, ("cc").toList⟩] 5 3).map
        Cue.Lines
      = [[("aa bb cc").toList]] ∧
    wrapWords (("aa bb cc").toList) 5 3
      = [("aa bb").toList, ("cc").toList] := by
  refine ⟨?_, by decide⟩
  have hw1 : wrapWords ['a', 'a', ' ', 'b', 'b'] 5 3 = [['a', 'a', ' ', 'b', 'b']] := by
    decide
  have hw2 : wrapWords ['c', 'c'] 5 3 = [['c', 'c']] := by decide
  have hts : trimSpace ['a', 'a', ' ', 'b', 'b', ' ', 'c', 'c']
      = ['a', 'a', ' ', 'b', 'b', ' ', 'c', 'c'] := by decide
  have hw3 : wrapWords ['a', 'a', ' ', 'b', 'b', ' ', 'c', 'c'] 42 2
      = [['a', 'a', ' ', 'b', 'b', ' ', 'c', 'c']] := by decide
  have hpre : segToCueAux 5 3 [⟨0, 1 / 2, ("aa bb").toList⟩, ⟨1 / 2, 2, ("cc").toList⟩] 1
      = [⟨1, 0, 1 / 2, [("aa bb").toList], ("aa bb").toList⟩,
         ⟨2, 1 / 2, 2, [("cc").toList], ("cc").toList⟩] := by
    simp [segToCueAux, hw1, hw2]
  have hdur : ¬((3 : ℚ) / 5 ≤ 1 / 2 - 0) := by norm_num
  simp only [segmentsToCues, hpre, mergeShortCues, List.length_cons, List.length_nil]
  norm_num [mergePass, hdur, hts, hw3, reindexAux]

/-- C2 (amended): the short-cue merge rule as the code implements it: a
single left-to-right pass merging each short (< 0.6 s) non-final cue with
its successor (start from the short cue, end from the successor, raw text
the trimmed single-space join), except that the merged cue's display lines
are re-wrapped with the fixed default budget maxChars = 42, maxLines = 2
rather than the pipeline's configured values; a freshly merged cue is not
re-checked in the same pass, and indices are reassigned from 1 afterwards
(when the list has at least two cues). -/
theorem C2_merge_amended (cues : List Cue) :
    mergeShortCues cues (3 / 5) = mergeShortCuesSpec cues := by
  simp only [mergeShortCues, mergeShortCuesSpec]
  by_cases h : cues.length < 2
  · rw [if_pos h, if_pos h]
  · rw [if_neg h, if_neg h, mergePass_eq_spec]

/-! ## C8: whole-file mode and configuration validation -/

/-- C8: if `windowSec ≤ 0`, `chunkPCM` returns the whole buffer as a
single chunk, and the pipeline transcribes the whole buffer at offset 0
with no overlap-deduplication stage; if `windowSec > 0` but
`windowSec ≤ overlapSec`, the run fails with the configuration error
before any chunk is transcribed (the result is this error for every
possible engine). -/
theorem C8_wholefile_and_config :
    (∀ (pcm : List ℚ) (sr w o : ℤ), 0 < sr → w ≤ 0 → chunkPCM pcm sr w o = [pcm]) ∧
    (∀ (w o : ℤ) (mc ml : ℕ) (pcm : List ℚ) (engine : List ℚ → List Segment),
      w ≤ 0 →
      runPipeline w o mc ml pcm engine
        = Except.ok (segmentsToCues (transcribePost (engine pcm)) mc ml)) ∧
    (∀ (w o : ℤ) (mc ml : ℕ) (pcm : List ℚ) (engine : List ℚ → List Segment),
      0 < w → w ≤ o →
      runPipeline w o mc ml pcm engine
        = Except.error (("window must be > overlap").toList)) := by
  refine ⟨?_, ?_, ?_⟩
  · intro pcm sr w o hsr hw
    have hws : w * sr ≤ 0 := mul_nonpos_iff.mpr (Or.inr ⟨hw, hsr.le⟩)
    simp only [chunkPCM]
    rw [if_pos hws]
  · intro w o mc ml pcm engine hw
    simp only [runPipeline]
    rw [if_pos hw]
  · intro w o mc ml pcm engine hw hwo
    simp only [runPipeline]
    rw [if_neg (not_le.mpr hw), if_pos hwo]

/-- C8 witness: the three behaviors at concrete configurations
(`w = -2` whole-file chunking, `w = 0` whole-file pipeline, `w = 3 ≤ o = 5`
configuration failure). -/
theorem C8_wholefile_and_config_witness :
    ((0 : ℤ) < 1 ∧ (-2 : ℤ) ≤ 0 ∧ chunkPCM [(1 : ℚ)] 1 (-2) 0 = [[(1 : ℚ)]]) ∧
    ((0 : ℤ) ≤ 0 ∧
      runPipeline 0 1 42 2 [(1 : ℚ)] (fun _ => [])
        = Except.ok (segmentsToCues
            (transcribePost ((fun _ => ([] : List Segment)) [(1 : ℚ)])) 42 2)) ∧
    ((0 : ℤ) < 3 ∧ (3 : ℤ) ≤ 5 ∧
      runPipeline 3 5 42 2 [(1 : ℚ)] (fun _ => [])
        = Except.error (("window must be > overlap").toList)) :=
  ⟨⟨by decide, by decide,
      C8_wholefile_and_config.1 [(1 : ℚ)] 1 (-2) 0 (by decide) (by decide)⟩,
    ⟨by decide,
      C8_wholefile_and_config.2.1 0 1 42 2 [(1 : ℚ)] (fun _ => []) (by decide)⟩,
    ⟨by decide, by decide,
      C8_wholefile_and_config.2.2 3 5 42 2 [(1 : ℚ)] (fun _ => []) (by decide) (by decide)⟩⟩

/-! ## C6: wrap invariants -/

lemma mem_of_getElem?_list {α : Type} {l : List α} {n : ℕ} {a : α}
    (h : l[n]? = some a) : a ∈ l := by
  obtain ⟨hn, rfl⟩ := List.getElem?_eq_some_iff.mp h
  exact List.getElem_mem hn

lemma fieldsAux_noWS :
    ∀ (s : Str) (acc : Str), (∀ c ∈ acc, ¬c.isWhitespace) →
      ∀ w ∈ fieldsAux s acc, w ≠ [] ∧ ∀ c ∈ w, ¬c.isWhitespace
  | [], acc, hacc => by
    intro w hw
    simp only [fieldsAux] at hw
    by_cases h : acc = []
    · rw [if_pos h] at hw
      exact absurd hw (List.not_mem_nil w)
    · rw [if_neg h] at hw
      simp only [List.mem_singleton] at hw
      exact hw ▸ ⟨h, hacc⟩
  | c :: cs, acc, hacc => by
    intro w hw
    simp only [fieldsAux] at hw
    by_cases hc : c.isWhitespace
    · rw [if_pos hc] at hw
      by_cases h : acc = []
      · rw [if_pos h] at hw
        exact fieldsAux_noWS cs [] (by intro x hx; exact absurd hx (List.not_mem_nil x)) w hw
      · rw [if_neg h] at hw
        rcases List.mem_cons.mp hw with h1 | h2
        · exact h1 ▸ ⟨h, hacc⟩
        · exact fieldsAux_noWS cs [] (by intro x hx; exact absurd hx (List.not_mem_nil x)) w h2
    · rw [if_neg hc] at hw
      refine fieldsAux_noWS cs (acc ++ [c]) ?_ w hw
      intro x hx
      rcases List.mem_append.mp hx with h1 | h2
      · exact hacc x h1
      · rw [List.mem_singleton.mp h2]
        exact hc

lemma mem_fields (s : Str) :
    ∀ w ∈ fieldsPreservePunct s, w ≠ [] ∧ ∀ c ∈ w, ¬c.isWhitespace :=
  fieldsAux_noWS s [] (by intro x hx; exact absurd hx (List.not_mem_nil x))

lemma joinWords_cons (w : Str) (ws : List Str) (h : ws ≠ []) :
    joinWords (w :: ws) = w ++ ' ' :: joinWords ws := by
  cases ws with
  | nil => exact absurd rfl h
  | cons b t => rfl

lemma joinWords_concat :
    ∀ (ws : List Str), ws ≠ [] → ∀ w : Str,
      joinWords (ws ++ [w]) = joinWords ws ++ ' ' :: w
  | [], h, _ => absurd rfl h
  | [a], _, w => rfl
  | a :: b :: t, _, w => by
    rw [List.cons_append,
      joinWords_cons a ((b :: t) ++ [w]) (by simp),
      joinWords_concat (b :: t) (by simp) w,
      joinWords_cons a (b :: t) (by simp)]
    simp

lemma wjrAux_subset :
    ∀ (l : List Str) (frm : Str) (b : Bool), ∀ x ∈ wjrAux l frm b, x ∈ l
  | [], _, _ => by intro x hx; exact absurd hx (List.not_mem_nil x)
  | w :: ws, frm, b => by
    intro x hx
    simp only [wjrAux] at hx
    by_cases h1 : (!b && w = frm : Bool) = true
    · rw [if_pos h1] at hx
      exact List.mem_cons_of_mem w (wjrAux_subset ws frm true x hx)
    · rw [if_neg h1] at hx
      by_cases h2 : b = true
      · rw [if_pos h2] at hx
        rcases List.mem_cons.mp hx with h3 | h4
        · exact h3 ▸ List.mem_cons_self w ws
        · exact List.mem_cons_of_mem w (wjrAux_subset ws frm b x h4)
      · rw [if_neg h2] at hx
        exact List.mem_cons_of_mem w (wjrAux_subset ws frm false x hx)

lemma lastIndexSpace_lt : ∀ t : Str, lastIndexSpace t < (t.length : ℤ)
  | [] => by simp [lastIndexSpace]
  | c :: cs => by
    have ih := lastIndexSpace_lt cs
    simp only [lastIndexSpace, List.length_cons]
    by_cases h : 0 ≤ lastIndexSpace cs
    · rw [if_pos h]
      push_cast
      omega
    · rw [if_neg h]
      by_cases hc : c = ' '
      · rw [if_pos hc]
        positivity
      · rw [if_neg hc]
        have : (0 : ℤ) ≤ cs.length := by positivity
        omega

lemma lastIndexSpace_get :
    ∀ t : Str, 0 ≤ lastIndexSpace t → t[(lastIndexSpace t).toNat]? = some ' '
  | [], h => by simp [lastIndexSpace] at h
  | c :: cs, h => by
    simp only [lastIndexSpace] at h ⊢
    by_cases h0 : 0 ≤ lastIndexSpace cs
    · rw [if_pos h0] at h ⊢
      have ih := lastIndexSpace_get cs h0
      have htn : (lastIndexSpace cs + 1).toNat = (lastIndexSpace cs).toNat + 1 := by omega
      rw [htn]
      simpa using ih
    · rw [if_neg h0] at h ⊢
      by_cases hc : c = ' '
      · rw [if_pos hc] at h ⊢
        subst hc
        simp
      · rw [if_neg hc] at h
        omega

lemma lastIndexSpace_neg : ∀ t : Str, lastIndexSpace t < 0 → ' ' ∉ t
  | [], _ => List.not_mem_nil ' '
  | c :: cs, h => by
    simp only [lastIndexSpace] at h
    by_cases h0 : 0 ≤ lastIndexSpace cs
    · rw [if_pos h0] at h
      omega
    · rw [if_neg h0] at h
      by_cases hc : c = ' '
      · rw [if_pos hc] at h
        omega
      · rw [if_neg hc] at h
        intro hmem
        rcases List.mem_cons.mp hmem with h1 | h2
        · exact hc h1.symm
        · exact lastIndexSpace_neg cs (by omega) h2

lemma joinWords_take_space :
    ∀ (ws : List Str), ws ≠ [] →
      (∀ w ∈ ws, w ≠ [] ∧ ∀ c ∈ w, ¬c.isWhitespace) →
      ∀ p : ℕ, (joinWords ws)[p]? = some ' ' →
        ∃ j, 0 < j ∧ j < ws.length ∧ (joinWords ws).take p = joinWords (ws.take j)
  | [], h, _, _, _ => absurd rfl h
  | [w], _, hW, p, hp => by
    have hsp : ' ' ∈ w := mem_of_getElem?_list hp
    have := (hW w (List.mem_singleton.mpr rfl)).2 ' ' hsp
    simp at this
  | w :: b :: t, _, hW, p, hp => by
    have hne : (b :: t : List Str) ≠ [] := by simp
    have hjw : joinWords (w :: b :: t) = w ++ ' ' :: joinWords (b :: t) :=
      joinWords_cons w (b :: t) hne
    rw [hjw] at hp
    rcases lt_trichotomy p w.length with hlt | heq | hgt
    · rw [List.getElem?_append_left hlt] at hp
      have hsp : ' ' ∈ w := mem_of_getElem?_list hp
      have := (hW w (List.mem_cons_self w _)).2 ' ' hsp
      simp at this
    · refine ⟨1, one_pos, by simp, ?_⟩
      rw [hjw, heq, List.take_left]
      rfl
    · have hwp : w.length ≤ p := le_of_lt hgt
      have hp' : p - w.length = (p - w.length - 1) + 1 := by omega
      rw [List.getElem?_append_right hwp, hp'] at hp
      simp only [List.getElem?_cons_succ] at hp
      obtain ⟨j', hj'0, hj'lt, htake⟩ :=
        joinWords_take_space (b :: t) hne
          (fun x hx => hW x (List.mem_cons_of_mem w hx)) (p - w.length - 1) hp
      have htne : (b :: t).take j' ≠ [] := by
        rw [Ne, List.take_eq_nil_iff]
        push_neg
        exact ⟨by omega, by simp⟩
      refine ⟨j' + 1, Nat.succ_pos j', ?_, ?_⟩
      · simp only [List.length_cons] at hj'lt ⊢
        omega
      · rw [hjw, List.take_append_eq_append_take, List.take_of_length_le hwp, hp',
          List.take_succ_cons, htake, List.take_succ_cons,
          joinWords_cons w _ htne]

lemma softTruncate_le (s : Str) (mc : ℕ) : (softTruncate s mc).length ≤ mc := by
  simp only [softTruncate]
  by_cases h1 : s.length ≤ mc
  · rw [if_pos h1]
    exact h1
  · rw [if_neg h1]
    by_cases h2 : 0 < lastIndexSpace (s.take mc)
    · rw [if_pos h2]
      have hlt := lastIndexSpace_lt (s.take mc)
      have hlen : (s.take mc).length ≤ mc := List.length_take_le mc s
      have htn : (lastIndexSpace (s.take mc)).toNat ≤ mc := by omega
      calc (s.take (lastIndexSpace (s.take mc)).toNat).length
          ≤ (lastIndexSpace (s.take mc)).toNat := List.length_take_le _ s
        _ ≤ mc := htn
    · rw [if_neg h2]
      exact List.length_take_le mc s

lemma joinWords_head (w : Str) (ws : List Str) (c : Char) (hw : w[(0 : ℕ)]? = some c) :
    (joinWords (w :: ws))[(0 : ℕ)]? = some c := by
  cases ws with
  | nil => exact hw
  | cons b t =>
    rw [joinWords_cons w (b :: t) (by simp)]
    have hlen : 0 < w.length := by
      obtain ⟨h0, _⟩ := List.getElem?_eq_some_iff.mp hw
      exact h0
    rw [List.getElem?_append_left hlen]
    exact hw

lemma softTruncate_join (ws : List Str) (hne : ws ≠ [])
    (hW : ∀ w ∈ ws, w ≠ [] ∧ ∀ c ∈ w, ¬c.isWhitespace) (mc : ℕ) :
    ' ' ∈ softTruncate (joinWords ws) mc →
    ∃ ws', ws' ≠ [] ∧ (∀ w ∈ ws', w ∈ ws) ∧
      softTruncate (joinWords ws) mc = joinWords ws' := by
  intro hsp
  simp only [softTruncate] at hsp ⊢
  by_cases h1 : (joinWords ws).length ≤ mc
  · rw [if_pos h1]
    exact ⟨ws, hne, fun w hw => hw, rfl⟩
  · rw [if_neg h1] at hsp ⊢
    by_cases h2 : 0 < lastIndexSpace ((joinWords ws).take mc)
    · rw [if_pos h2] at hsp ⊢
      have hget : ((joinWords ws).take mc)[(lastIndexSpace ((joinWords ws).take mc)).toNat]?
          = some ' ' :=
        lastIndexSpace_get ((joinWords ws).take mc) (le_of_lt h2)
      have hplt : (lastIndexSpace ((joinWords ws).take mc)).toNat < mc := by
        have := lastIndexSpace_lt ((joinWords ws).take mc)
        have hlen : ((joinWords ws).take mc).length ≤ mc := List.length_take_le _ _
        omega
      rw [List.getElem?_take_of_lt hplt] at hget
      obtain ⟨j, hj0, hjlt, htake⟩ := joinWords_take_space ws hne hW _ hget
      refine ⟨ws.take j, ?_, fun w hw => List.take_subset j ws hw, htake⟩
      rw [Ne, List.take_eq_nil_iff]
      push_neg
      exact ⟨by omega, hne⟩
    · rw [if_neg h2] at hsp
      exfalso
      rcases lt_or_eq_of_le (not_lt.mp h2) with hneg | hzero
      · exact lastIndexSpace_neg _ hneg hsp
      · have hge : 0 ≤ lastIndexSpace ((joinWords ws).take mc) := hzero.ge
        have hget := lastIndexSpace_get ((joinWords ws).take mc) hge
        rw [hzero] at hget
        have hmc : 0 < mc := by
          by_contra hmc0
          have hmc' : mc = 0 := by omega
          rw [hmc'] at hsp
          simp at hsp
        simp only [Int.toNat_zero] at hget
        rw [List.getElem?_take_of_lt hmc] at hget
        obtain ⟨w0, ws0, rfl⟩ := List.exists_cons_of_ne_nil hne
        obtain ⟨hw0ne, hw0noWS⟩ := hW w0 (List.mem_cons_self w0 ws0)
        obtain ⟨c0, w0', rfl⟩ := List.exists_cons_of_ne_nil hw0ne
        have hhead : (joinWords ((c0 :: w0') :: ws0))[(0 : ℕ)]? = some c0 :=
          joinWords_head (c0 :: w0') ws0 c0 (by simp)
        rw [hhead] at hget
        have hc0 : c0 = ' ' := by
          injection hget
        have := hw0noWS c0 (List.mem_cons_self c0 w0')
        rw [hc0] at this
        simp at this

lemma wrapAux_len (allW : List Str) (mc ml : ℕ) :
    ∀ (rem lines : List Str) (curr : Str),
      (wrapAux allW mc ml rem lines curr).length ≤ ml
  | [], lines, curr => by
    simp only [wrapAux]
    by_cases h : ml < (if curr = [] then lines else lines ++ [curr]).length
    · rw [if_pos h]
      simp [List.length_take]
    · rw [if_neg h]
      omega
  | w :: ws, lines, curr => by
    simp only [wrapAux]
    by_cases h1 : curr = []
    · rw [if_pos h1]
      exact wrapAux_len allW mc ml ws lines w
    · rw [if_neg h1]
      by_cases h2 : curr.length + 1 + w.length ≤ mc
      · rw [if_pos h2]
        exact wrapAux_len allW mc ml ws lines (curr ++ ' ' :: w)
      · rw [if_neg h2]
        by_cases h3 : (lines ++ [curr]).length + 1 = ml
        · rw [if_pos h3]
          by_cases h5 : ml <
              (if joinWords (wordsJoinRemaining allW w) = [] then lines ++ [curr]
               else (lines ++ [curr]) ++
                 [softTruncate
                   (if 0 < w.length then
                     w ++ ' ' :: joinWords (wordsJoinRemaining allW w)
                    else w) mc]).length
          · rw [if_pos h5]
            simp [List.length_take]
          · rw [if_neg h5]
            omega
        · rw [if_neg h3]
          exact wrapAux_len allW mc ml ws (lines ++ [curr]) w

lemma okOfCurr (s : Str) (mc : ℕ) (curr : Str)
    (h : (curr.length ≤ mc ∨ curr ∈ fieldsPreservePunct s) ∧
      ∃ ws, ws ≠ [] ∧ (∀ y ∈ ws, y ∈ fieldsPreservePunct s) ∧ curr = joinWords ws) :
    (curr.length ≤ mc ∨ (curr ∈ fieldsPreservePunct s ∧ ∀ c ∈ curr, ¬c.isWhitespace)) ∧
    (' ' ∈ curr →
      ∃ ws, ws ≠ [] ∧ (∀ y ∈ ws, y ∈ fieldsPreservePunct s) ∧ curr = joinWords ws) := by
  refine ⟨?_, fun _ => h.2⟩
  rcases h.1 with hlen | hmem
  · exact Or.inl hlen
  · exact Or.inr ⟨hmem, (mem_fields s curr hmem).2⟩

lemma wrapAux_inv (s : Str) (mc ml : ℕ) :
    ∀ (rem lines : List Str) (curr : Str),
      (∀ x ∈ rem, x ∈ fieldsPreservePunct s) →
      (∀ x ∈ lines,
        (x.length ≤ mc ∨ (x ∈ fieldsPreservePunct s ∧ ∀ c ∈ x, ¬c.isWhitespace)) ∧
        (' ' ∈ x →
          ∃ ws, ws ≠ [] ∧ (∀ y ∈ ws, y ∈ fieldsPreservePunct s) ∧ x = joinWords ws)) →
      (curr = [] ∨
        ((curr.length ≤ mc ∨ curr ∈ fieldsPreservePunct s) ∧
          ∃ ws, ws ≠ [] ∧ (∀ y ∈ ws, y ∈ fieldsPreservePunct s) ∧ curr = joinWords ws)) →
      ∀ l ∈ wrapAux (fieldsPreservePunct s) mc ml rem lines curr,
        (l.length ≤ mc ∨ (l ∈ fieldsPreservePunct s ∧ ∀ c ∈ l, ¬c.isWhitespace)) ∧
        (' ' ∈ l →
          ∃ ws, ws ≠ [] ∧ (∀ y ∈ ws, y ∈ fieldsPreservePunct s) ∧ l = joinWords ws)
  | [], lines, curr => by
    intro hrem hlines hcurr l hl
    simp only [wrapAux] at hl
    have hlines' : ∀ x ∈ (if curr = [] then lines else lines ++ [curr]),
        (x.length ≤ mc ∨ (x ∈ fieldsPreservePunct s ∧ ∀ c ∈ x, ¬c.isWhitespace)) ∧
        (' ' ∈ x →
          ∃ ws, ws ≠ [] ∧ (∀ y ∈ ws, y ∈ fieldsPreservePunct s) ∧ x = joinWords ws) := by
      by_cases hc : curr = []
      · rw [if_pos hc]
        exact hlines
      · rw [if_neg hc]
        intro x hx
        rcases List.mem_append.mp hx with hx1 | hx2
        · exact hlines x hx1
        · rcases hcurr with hc' | hc'
          · exact absurd hc' hc
          · rw [List.mem_singleton.mp hx2]
            exact okOfCurr s mc curr hc'
    by_cases hml : ml < (if curr = [] then lines else lines ++ [curr]).length
    · rw [if_pos hml] at hl
      exact hlines' l (List.take_subset _ _ hl)
    · rw [if_neg hml] at hl
      exact hlines' l hl
  | w :: ws, lines, curr => by
    intro hrem hlines hcurr l hl
    have hwmem : w ∈ fieldsPreservePunct s := hrem w (List.mem_cons_self w ws)
    have hrem' : ∀ x ∈ ws, x ∈ fieldsPreservePunct s :=
      fun x hx => hrem x (List.mem_cons_of_mem w hx)
    have hwsingle : ∀ y ∈ ([w] : List Str), y ∈ fieldsPreservePunct s := by
      intro y hy
      rw [List.mem_singleton.mp hy]
      exact hwmem
    simp only [wrapAux] at hl
    by_cases h1 : curr = []
    · rw [if_pos h1] at hl
      exact wrapAux_inv s mc ml ws lines w hrem' hlines
        (Or.inr ⟨Or.inr hwmem, [w], by simp, hwsingle, rfl⟩) l hl
    · rw [if_neg h1] at hl
      rcases hcurr with hc | ⟨hlenmem, ws₀, hne₀, hmem₀, heq₀⟩
      · exact absurd hc h1
      by_cases h2 : curr.length + 1 + w.length ≤ mc
      · rw [if_pos h2] at hl
        refine wrapAux_inv s mc ml ws lines (curr ++ ' ' :: w) hrem' hlines
          (Or.inr ⟨Or.inl ?_, ws₀ ++ [w], by simp, ?_, ?_⟩) l hl
        · simp only [List.length_append, List.length_cons]
          omega
        · intro y hy
          rcases List.mem_append.mp hy with hy1 | hy2
          · exact hmem₀ y hy1
          · rw [List.mem_singleton.mp hy2]
            exact hwmem
        · rw [joinWords_concat ws₀ hne₀ w, heq₀]
      · rw [if_neg h2] at hl
        have hlines2 : ∀ x ∈ lines ++ [curr],
            (x.length ≤ mc ∨ (x ∈ fieldsPreservePunct s ∧ ∀ c ∈ x, ¬c.isWhitespace)) ∧
            (' ' ∈ x →
              ∃ ws', ws' ≠ [] ∧ (∀ y ∈ ws', y ∈ fieldsPreservePunct s) ∧
                x = joinWords ws') := by
          intro x hx
          rcases List.mem_append.mp hx with hx1 | hx2
          · exact hlines x hx1
          · rw [List.mem_singleton.mp hx2]
            exact okOfCurr s mc curr ⟨hlenmem, ws₀, hne₀, hmem₀, heq₀⟩
        by_cases h3 : (lines ++ [curr]).length + 1 = ml
        · rw [if_pos h3] at hl
          by_cases h4 : joinWords (wordsJoinRemaining (fieldsPreservePunct s) w) = []
          · rw [if_pos h4] at hl
            by_cases h5 : ml < (lines ++ [curr]).length
            · rw [if_pos h5] at hl
              exact hlines2 l (List.take_subset _ _ hl)
            · rw [if_neg h5] at hl
              exact hlines2 l hl
          · rw [if_neg h4] at hl
            have hwne : w ≠ [] := (mem_fields s w hwmem).1
            have hwpos : 0 < w.length := List.length_pos.mpr hwne
            have hsub : ∀ x ∈ wordsJoinRemaining (fieldsPreservePunct s) w,
                x ∈ fieldsPreservePunct s :=
              fun x hx => wjrAux_subset (fieldsPreservePunct s) w false x hx
            have hne₁ : wordsJoinRemaining (fieldsPreservePunct s) w ≠ [] := by
              intro hcnil
              apply h4
              rw [hcnil]
              rfl
            have hjoin : (if 0 < w.length then
                  w ++ ' ' :: joinWords (wordsJoinRemaining (fieldsPreservePunct s) w)
                else w)
                = joinWords (w :: wordsJoinRemaining (fieldsPreservePunct s) w) := by
              rw [if_pos hwpos, joinWords_cons w _ hne₁]
            have hWall : ∀ x ∈ w :: wordsJoinRemaining (fieldsPreservePunct s) w,
                x ≠ [] ∧ ∀ c ∈ x, ¬c.isWhitespace := by
              intro x hx
              rcases List.mem_cons.mp hx with hx1 | hx2
              · rw [hx1]
                exact mem_fields s w hwmem
              · exact mem_fields s x (hsub x hx2)
            have hmemall : ∀ x ∈ w :: wordsJoinRemaining (fieldsPreservePunct s) w,
                x ∈ fieldsPreservePunct s := by
              intro x hx
              rcases List.mem_cons.mp hx with hx1 | hx2
              · rw [hx1]
                exact hwmem
              · exact hsub x hx2
            have hOKnew :
                ((softTruncate (if 0 < w.length then
                    w ++ ' ' :: joinWords (wordsJoinRemaining (fieldsPreservePunct s) w)
                  else w) mc).length ≤ mc ∨
                  (softTruncate (if 0 < w.length then
                    w ++ ' ' :: joinWords (wordsJoinRemaining (fieldsPreservePunct s) w)
                  else w) mc ∈ fieldsPreservePunct s ∧
                    ∀ c ∈ softTruncate (if 0 < w.length then
                      w ++ ' ' :: joinWords (wordsJoinRemaining (fieldsPreservePunct s) w)
                    else w) mc, ¬c.isWhitespace)) ∧
                (' ' ∈ softTruncate (if 0 < w.length then
                    w ++ ' ' :: joinWords (wordsJoinRemaining (fieldsPreservePunct s) w)
                  else w) mc →
                  ∃ ws', ws' ≠ [] ∧ (∀ y ∈ ws', y ∈ fieldsPreservePunct s) ∧
                    softTruncate (if 0 < w.length then
                      w ++ ' ' :: joinWords (wordsJoinRemaining (fieldsPreservePunct s) w)
                    else w) mc = joinWords ws') := by
              constructor
              · exact Or.inl (softTruncate_le _ mc)
              · intro hspc
                rw [hjoin] at hspc ⊢
                obtain ⟨ws', hne', hsub', heq'⟩ :=
                  softTruncate_join _ (by simp) hWall mc hspc
                exact ⟨ws', hne', fun y hy => hmemall y (hsub' y hy), heq'⟩
            have hlines3 : ∀ x ∈ (lines ++ [curr]) ++
                [softTruncate (if 0 < w.length then
                  w ++ ' ' :: joinWords (wordsJoinRemaining (fieldsPreservePunct s) w)
                else w) mc],
                (x.length ≤ mc ∨ (x ∈ fieldsPreservePunct s ∧ ∀ c ∈ x, ¬c.isWhitespace)) ∧
                (' ' ∈ x →
                  ∃ ws', ws' ≠ [] ∧ (∀ y ∈ ws', y ∈ fieldsPreservePunct s) ∧
                    x = joinWords ws') := by
              intro x hx
              rcases List.mem_append.mp hx with hx1 | hx2
              · exact hlines2 x hx1
              · rw [List.mem_singleton.mp hx2]
                exact hOKnew
            by_cases h5 : ml < ((lines ++ [curr]) ++
                [softTruncate (if 0 < w.length then
                  w ++ ' ' :: joinWords (wordsJoinRemaining (fieldsPreservePunct s) w)
                else w) mc]).length
            · rw [if_pos h5] at hl
              exact hlines3 l (List.take_subset _ _ hl)
            · rw [if_neg h5] at hl
              exact hlines3 l hl
        · rw [if_neg h3] at hl
          exact wrapAux_inv s mc ml ws (lines ++ [curr]) w hrem' hlines2
            (Or.inr ⟨Or.inr hwmem, [w], by simp, hwsingle, rfl⟩) l hl

/-- C6: wrap invariants.  Every line produced by `wrapWords` either fits in
`maxChars` or is a single un-splittable word (an element of the input's
whitespace-split word list, containing no whitespace); every line that
contains a space is a single-space join of whole input words (so no
fragment of a split word ever sits next to a space); and at most
`maxLines` lines are returned. -/
theorem C6_wrap_invariants (s : Str) (maxChars maxLines : ℕ)
    (_hmc : 0 < maxChars) (_hml : 0 < maxLines) :
    (wrapWords s maxChars maxLines).length ≤ maxLines ∧
    (∀ l ∈ wrapWords s maxChars maxLines,
      l.length ≤ maxChars ∨
        (l ∈ fieldsPreservePunct s ∧ ∀ c ∈ l, ¬c.isWhitespace)) ∧
    (∀ l ∈ wrapWords s maxChars maxLines, ' ' ∈ l →
      ∃ ws, ws ≠ [] ∧ (∀ y ∈ ws, y ∈ fieldsPreservePunct s) ∧ l = joinWords ws) := by
  refine ⟨wrapAux_len _ maxChars maxLines _ _ _, ?_, ?_⟩
  · intro l hl
    exact (wrapAux_inv s maxChars maxLines (fieldsPreservePunct s) [] []
      (fun x hx => hx) (by intro x hx; exact absurd hx (List.not_mem_nil x))
      (Or.inl rfl) l hl).1
  · intro l hl
    exact (wrapAux_inv s maxChars maxLines (fieldsPreservePunct s) [] []
      (fun x hx => hx) (by intro x hx; exact absurd hx (List.not_mem_nil x))
      (Or.inl rfl) l hl).2

/-- C6 witness: the invariants instantiated at the input
"hello world again" with maxChars = 5, maxLines = 2. -/
theorem C6_wrap_invariants_witness :
    0 < 5 ∧ 0 < 2 ∧
    ((wrapWords (("hello world again").toList) 5 2).length ≤ 2 ∧
      (∀ l ∈ wrapWords (("hello world again").toList) 5 2,
        l.length ≤ 5 ∨
          (l ∈ fieldsPreservePunct (("hello world again").toList) ∧
            ∀ c ∈ l, ¬c.isWhitespace)) ∧
      (∀ l ∈ wrapWords (("hello world again").toList) 5 2, ' ' ∈ l →
        ∃ ws, ws ≠ [] ∧
          (∀ y ∈ ws, y ∈ fieldsPreservePunct (("hello world again").toList)) ∧
          l = joinWords ws)) :=
  ⟨by decide, by decide,
    C6_wrap_invariants (("hello world again").toList) 5 2 (by decide) (by decide)⟩

/-! ## C4: windowing -/

lemma chunkLoop_unfold (pcm : List ℚ) (win st start : ℕ)
    (hst : 0 < st) (hlt : start < pcm.length) :
    chunkLoop pcm win st start =
      ((pcm.drop start).take win) ::
        (if pcm.length ≤ start + win then []
         else chunkLoop pcm win st (start + st)) := by
  rw [chunkLoop]
  rw [dif_pos ⟨hst, hlt⟩]

lemma chunkLoop_get (pcm : List ℚ) (win st : ℕ) (hst : 0 < st) (hsw : st ≤ win) :
    ∀ (k start : ℕ), start < pcm.length →
      k < (chunkLoop pcm win st start).length →
      (chunkLoop pcm win st start).get? k
        = some ((pcm.drop (start + k * st)).take win)
  | 0, start, hlt, _ => by
    rw [chunkLoop_unfold pcm win st start hst hlt]
    simp
  | k + 1, start, hlt, hk => by
    rw [chunkLoop_unfold pcm win st start hst hlt] at hk ⊢
    by_cases hend : pcm.length ≤ start + win
    · rw [if_pos hend] at hk
      simp at hk
    · rw [if_neg hend] at hk ⊢
      have hlt' : start + st < pcm.length := by omega
      simp only [List.length_cons] at hk
      have ih := chunkLoop_get pcm win st hst hsw k (start + st) hlt' (by omega)
      simp only [List.get?_cons_succ]
      rw [ih]
      have harith : start + st + k * st = start + (k + 1) * st := by ring
      rw [harith]

lemma chunkLoop_not_after (pcm : List ℚ) (win st : ℕ) (hst : 0 < st) (hsw : st ≤ win) :
    ∀ (k start : ℕ), start < pcm.length →
      k + 1 < (chunkLoop pcm win st start).length →
      start + k * st + win < pcm.length
  | 0, start, hlt, hk => by
    rw [chunkLoop_unfold pcm win st start hst hlt] at hk
    by_cases hend : pcm.length ≤ start + win
    · rw [if_pos hend] at hk
      simp at hk
    · rw [if_neg hend] at hk
      omega
  | k + 1, start, hlt, hk => by
    rw [chunkLoop_unfold pcm win st start hst hlt] at hk
    by_cases hend : pcm.length ≤ start + win
    · rw [if_pos hend] at hk
      simp at hk
    · rw [if_neg hend] at hk
      have hlt' : start + st < pcm.length := by omega
      simp only [List.length_cons] at hk
      have ih := chunkLoop_not_after pcm win st hst hsw k (start + st) hlt' (by omega)
      have harith : start + st + k * st = start + (k + 1) * st := by ring
      omega

lemma chunkLoop_cover (pcm : List ℚ) (win st : ℕ) (hst : 0 < st) (hsw : st ≤ win) :
    ∀ (d start j : ℕ), pcm.length - start ≤ d → start < pcm.length →
      start ≤ j → j < pcm.length →
      ∃ k, k < (chunkLoop pcm win st start).length ∧
        start + k * st ≤ j ∧ j < start + k * st + win
  | 0, start, j, hd, hlt, _, _ => by omega
  | d + 1, start, j, hd, hlt, hsj, hjl => by
    rw [chunkLoop_unfold pcm win st start hst hlt]
    by_cases hend : pcm.length ≤ start + win
    · exact ⟨0, by simp, by omega, by omega⟩
    · by_cases hj : j < start + win
      · exact ⟨0, by simp, by omega, by omega⟩
      · have hlt' : start + st < pcm.length := by omega
        obtain ⟨k', hk', hle, hltj⟩ :=
          chunkLoop_cover pcm win st hst hsw d (start + st) j (by omega) hlt'
            (by omega) hjl
        rw [if_neg hend]
        refine ⟨k' + 1, by simpa using hk', ?_, ?_⟩
        · have harith : start + (k' + 1) * st = start + st + k' * st := by ring
          omega
        · have harith : start + (k' + 1) * st = start + st + k' * st := by ring
          omega

lemma chunkLoop_last (pcm : List ℚ) (win st : ℕ) (hst : 0 < st) (hsw : st ≤ win) :
    ∀ (d start : ℕ), pcm.length - start ≤ d → start < pcm.length →
      chunkLoop pcm win st start ≠ [] ∧
      start + ((chunkLoop pcm win st start).length - 1) * st +
          min win (pcm.length - (start + ((chunkLoop pcm win st start).length - 1) * st))
        = pcm.length
  | 0, start, hd, hlt => by omega
  | d + 1, start, hd, hlt => by
    rw [chunkLoop_unfold pcm win st start hst hlt]
    by_cases hend : pcm.length ≤ start + win
    · rw [if_pos hend]
      refine ⟨by simp, ?_⟩
      simp only [List.length_cons, List.length_nil]
      omega
    · rw [if_neg hend]
      have hlt' : start + st < pcm.length := by omega
      obtain ⟨hne, hlast⟩ :=
        chunkLoop_last pcm win st hst hsw d (start + st) (by omega) hlt'
      have hpos : 0 < (chunkLoop pcm win st (start + st)).length :=
        List.length_pos.mpr hne
      refine ⟨by simp, ?_⟩
      simp only [List.length_cons]
      have hr : ((chunkLoop pcm win st (start + st)).length + 1 - 1)
          = (chunkLoop pcm win st (start + st)).length := by omega
      rw [hr]
      have harith : start + (chunkLoop pcm win st (start + st)).length * st
          = start + st + ((chunkLoop pcm win st (start + st)).length - 1) * st := by
        rw [Nat.sub_one_mul]
        have hA : st ≤ (chunkLoop pcm win st (start + st)).length * st :=
          Nat.le_mul_of_pos_left st hpos
        omega
      rw [harith]
      exact hlast

lemma chunkPCM_eq_loop (pcm : List ℚ) (sr w o : ℤ)
    (hsr : 0 < sr) (ho : 0 < o) (how : o < w) :
    chunkPCM pcm sr w o = chunkLoop pcm (w * sr).toNat ((w - o) * sr).toNat 0 := by
  have hw : 0 < w := ho.trans how
  have hwin : 0 < w * sr := mul_pos hw hsr
  simp only [chunkPCM]
  rw [if_neg (not_le.mpr hwin)]
  have hst : w * sr - o * sr = (w - o) * sr := by ring
  rw [hst]

/-- C4: windowing correctness.  For a non-empty PCM buffer and
`w > o > 0`, `sr > 0`: chunk `k` is the slice starting at sample
`k * (w - o) * sr` of length `w * sr` clipped to the buffer end; every
chunk except the last ends strictly before the buffer end (no chunk is
produced after one reaches it); the chunks cover every sample index; the
last chunk ends exactly at the buffer length; and the concrete scenario of
125 s of 16 kHz PCM with `w = 60`, `o = 1` yields chunks at offsets 0, 59 s
and 118 s with the last chunk ending at 125 s. -/
theorem C4_windowing (pcm : List ℚ) (sr w o : ℤ)
    (hsr : 0 < sr) (ho : 0 < o) (how : o < w) (hne : pcm ≠ []) :
    (∀ k : ℕ, k < (chunkPCM pcm sr w o).length →
      (chunkPCM pcm sr w o).get? k
        = some ((pcm.drop (k * ((w - o) * sr).toNat)).take ((w * sr).toNat))) ∧
    (∀ k : ℕ, k + 1 < (chunkPCM pcm sr w o).length →
      k * ((w - o) * sr).toNat + (w * sr).toNat < pcm.length) ∧
    (∀ j : ℕ, j < pcm.length →
      ∃ k, k < (chunkPCM pcm sr w o).length ∧
        k * ((w - o) * sr).toNat ≤ j ∧
        j < k * ((w - o) * sr).toNat + (w * sr).toNat) ∧
    (0 < (chunkPCM pcm sr w o).length ∧
      ((chunkPCM pcm sr w o).length - 1) * ((w - o) * sr).toNat +
          min ((w * sr).toNat)
            (pcm.length - ((chunkPCM pcm sr w o).length - 1) * ((w - o) * sr).toNat)
        = pcm.length) ∧
    (pcm.length = 2000000 → sr = 16000 → w = 60 → o = 1 →
      chunkPCM pcm sr w o
          = [(pcm.drop 0).take (60 * 16000),
             (pcm.drop (59 * 16000)).take (60 * 16000),
             (pcm.drop (118 * 16000)).take (60 * 16000)] ∧
        ((pcm.drop (118 * 16000)).take (60 * 16000)).length
          = 125 * 16000 - 118 * 16000) := by
  have hwp : 0 < (w - o) * sr := mul_pos (by linarith) hsr
  have hst : 0 < ((w - o) * sr).toNat := by omega
  have hlemul : (w - o) * sr ≤ w * sr :=
    mul_le_mul_of_nonneg_right (by linarith) hsr.le
  have hsw : ((w - o) * sr).toNat ≤ (w * sr).toNat := by omega
  have h0 : 0 < pcm.length := List.length_pos.mpr hne
  have heq := chunkPCM_eq_loop pcm sr w o hsr ho how
  refine ⟨?_, ?_, ?_, ?_, ?_⟩
  · intro k hk
    rw [heq] at hk ⊢
    have := chunkLoop_get pcm ((w * sr).toNat) (((w - o) * sr).toNat) hst hsw k 0 h0 hk
    simpa using this
  · intro k hk
    rw [heq] at hk
    have := chunkLoop_not_after pcm ((w * sr).toNat) (((w - o) * sr).toNat)
      hst hsw k 0 h0 hk
    simpa using this
  · intro j hj
    rw [heq]
    obtain ⟨k, hk, hle, hlt⟩ := chunkLoop_cover pcm ((w * sr).toNat)
      (((w - o) * sr).toNat) hst hsw pcm.length 0 j (by omega) h0 (by omega) hj
    exact ⟨k, hk, by omega, by omega⟩
  · rw [heq]
    obtain ⟨hnn, hlast⟩ := chunkLoop_last pcm ((w * sr).toNat)
      (((w - o) * sr).toNat) hst hsw pcm.length 0 (by omega) h0
    refine ⟨List.length_pos.mpr hnn, ?_⟩
    simpa using hlast
  · intro hL hsr16 hw60 ho1
    subst hsr16 hw60 ho1
    have h960 : ((60 : ℤ) * 16000).toNat = 960000 := by decide
    have h944 : (((60 : ℤ) - 1) * 16000).toNat = 944000 := by decide
    rw [heq, h960, h944]
    rw [chunkLoop_unfold pcm 960000 944000 0 (by norm_num) (by omega)]
    rw [if_neg (by omega)]
    rw [chunkLoop_unfold pcm 960000 944000 944000 (by norm_num) (by omega)]
    rw [if_neg (by omega)]
    rw [chunkLoop_unfold pcm 960000 944000 1888000 (by norm_num) (by omega)]
    rw [if_pos (by omega)]
    constructor
    · norm_num
    · simp only [List.length_take, List.length_drop, hL]
      norm_num

/-- C4 witness: the windowing properties instantiated at a 5-sample buffer
with `sr = 1`, `w = 3`, `o = 1` (stride 2, window 3, chunks [0,3) and
[2,5)). -/
theorem C4_windowing_witness :
    (0 : ℤ) < 1 ∧ (0 : ℤ) < 1 ∧ (1 : ℤ) < 3 ∧ List.replicate 5 (0 : ℚ) ≠ [] ∧
    ((∀ k : ℕ, k < (chunkPCM (List.replicate 5 (0 : ℚ)) 1 3 1).length →
      (chunkPCM (List.replicate 5 (0 : ℚ)) 1 3 1).get? k
        = some (((List.replicate 5 (0 : ℚ)).drop (k * (((3 : ℤ) - 1) * 1).toNat)).take
            (((3 : ℤ) * 1).toNat))) ∧
    (∀ k : ℕ, k + 1 < (chunkPCM (List.replicate 5 (0 : ℚ)) 1 3 1).length →
      k * (((3 : ℤ) - 1) * 1).toNat + ((3 : ℤ) * 1).toNat
        < (List.replicate 5 (0 : ℚ)).length) ∧
    (∀ j : ℕ, j < (List.replicate 5 (0 : ℚ)).length →
      ∃ k, k < (chunkPCM (List.replicate 5 (0 : ℚ)) 1 3 1).length ∧
        k * (((3 : ℤ) - 1) * 1).toNat ≤ j ∧
        j < k * (((3 : ℤ) - 1) * 1).toNat + ((3 : ℤ) * 1).toNat) ∧
    (0 < (chunkPCM (List.replicate 5 (0 : ℚ)) 1 3 1).length ∧
      ((chunkPCM (List.replicate 5 (0 : ℚ)) 1 3 1).length - 1) *
            (((3 : ℤ) - 1) * 1).toNat +
          min (((3 : ℤ) * 1).toNat)
            ((List.replicate 5 (0 : ℚ)).length -
              ((chunkPCM (List.replicate 5 (0 : ℚ)) 1 3 1).length - 1) *
                (((3 : ℤ) - 1) * 1).toNat)
        = (List.replicate 5 (0 : ℚ)).length) ∧
    ((List.replicate 5 (0 : ℚ)).length = 2000000 → (1 : ℤ) = 16000 → (3 : ℤ) = 60 →
      (1 : ℤ) = 1 →
      chunkPCM (List.replicate 5 (0 : ℚ)) 1 3 1
          = [((List.replicate 5 (0 : ℚ)).drop 0).take (60 * 16000),
             ((List.replicate 5 (0 : ℚ)).drop (59 * 16000)).take (60 * 16000),
             ((List.replicate 5 (0 : ℚ)).drop (118 * 16000)).take (60 * 16000)] ∧
        (((List.replicate 5 (0 : ℚ)).drop (118 * 16000)).take (60 * 16000)).length
          = 125 * 16000 - 118 * 16000)) :=
  ⟨by decide, by decide, by decide, by simp,
    C4_windowing (List.replicate 5 (0 : ℚ)) 1 3 1 (by decide) (by decide) (by decide)
      (by simp)⟩

/-! ## C7: output format -/

lemma natDigitsAux_fuel (n : ℕ) :
    ∀ (f₁ f₂ : ℕ), n < f₁ → n < f₂ → natDigitsAux f₁ n = natDigitsAux f₂ n := by
  induction n using Nat.strong_induction_on with
  | _ n ih =>
    intro f₁ f₂ h₁ h₂
    obtain ⟨g₁, rfl⟩ : ∃ g, f₁ = g + 1 := ⟨f₁ - 1, by omega⟩
    obtain ⟨g₂, rfl⟩ : ∃ g, f₂ = g + 1 := ⟨f₂ - 1, by omega⟩
    simp only [natDigitsAux]
    by_cases hn : n < 10
    · rw [if_pos hn, if_pos hn]
    · rw [if_neg hn, if_neg hn,
        ih (n / 10) (by omega) g₁ g₂ (by omega) (by omega)]

lemma natDigits_lt10 (n : ℕ) (h : n < 10) : natDigits n = [digitChar n] := by
  have h2 : natDigits n
      = if n < 10 then [digitChar n]
        else natDigitsAux n (n / 10) ++ [digitChar (n % 10)] := rfl
  rw [h2, if_pos h]

lemma natDigits_ge10 (n : ℕ) (h : 10 ≤ n) :
    natDigits n = natDigits (n / 10) ++ [digitChar (n % 10)] := by
  have h2 : natDigits n
      = if n < 10 then [digitChar n]
        else natDigitsAux n (n / 10) ++ [digitChar (n % 10)] := rfl
  rw [h2, if_neg (not_lt.mpr h),
    natDigitsAux_fuel (n / 10) n (n / 10 + 1) (by omega) (by omega)]
  rfl

lemma natDigits_len1 (n : ℕ) (h : n < 10) : (natDigits n).length = 1 := by
  rw [natDigits_lt10 n h]
  rfl

lemma natDigits_len_le2 (n : ℕ) (h : n < 100) : (natDigits n).length ≤ 2 := by
  by_cases h1 : n < 10
  · rw [natDigits_len1 n h1]
    omega
  · rw [natDigits_ge10 n (by omega)]
    rw [List.length_append, natDigits_len1 (n / 10) (by omega)]
    simp

lemma natDigits_len_le3 (n : ℕ) (h : n < 1000) : (natDigits n).length ≤ 3 := by
  by_cases h1 : n < 100
  · have := natDigits_len_le2 n h1
    omega
  · rw [natDigits_ge10 n (by omega)]
    rw [List.length_append]
    have := natDigits_len_le2 (n / 10) (by omega)
    simp only [List.length_cons, List.length_nil]
    omega

lemma padZeros_length (w : ℕ) (s : Str) (h : s.length ≤ w) :
    (padZeros w s).length = w := by
  simp only [padZeros, List.length_append, List.length_replicate]
  omega


lemma tsVTT_shape (t : ℚ) (h0 : 0 ≤ t) (hlt : t < 360000) :
    (tsVTT t).length = 12 ∧ (tsVTT t)[2]? = some ':' ∧
      (tsVTT t)[5]? = some ':' ∧ (tsVTT t)[8]? = some '.' := by
  have hfl0 : 0 ≤ ⌊t⌋ := Int.floor_nonneg.mpr h0
  have hflt : ⌊t⌋ < 360000 := Int.floor_lt.mpr (by exact_mod_cast hlt)
  simp only [tsVTT]
  set T := (⌊t⌋).toNat with hT
  have hTlt : T < 360000 := by omega
  have hTq : (T : ℚ) ≤ t := by
    have h1 : ((⌊t⌋ : ℤ) : ℚ) ≤ t := Int.floor_le t
    have h2 : (T : ℤ) = ⌊t⌋ := by omega
    calc (T : ℚ) = ((T : ℤ) : ℚ) := by push_cast; ring
      _ = ((⌊t⌋ : ℤ) : ℚ) := by rw [h2]
      _ ≤ t := h1
  have hTq2 : t < (T : ℚ) + 1 := by
    have h1 : t < ((⌊t⌋ : ℤ) : ℚ) + 1 := Int.lt_floor_add_one t
    have h2 : (T : ℤ) = ⌊t⌋ := by omega
    calc t < ((⌊t⌋ : ℤ) : ℚ) + 1 := h1
      _ = ((T : ℤ) : ℚ) + 1 := by rw [h2]
      _ = (T : ℚ) + 1 := by push_cast; ring
  have hh : T / 3600 < 100 := by omega
  have hm : T % 3600 / 60 < 60 := by omega
  set sv := t - (((T / 3600 : ℕ) : ℚ) * 3600 + ((T % 3600 / 60 : ℕ) : ℚ) * 60) with hsv
  clear_value sv
  have hNat1 : (T / 3600) * 3600 + (T % 3600 / 60) * 60 ≤ T := by omega
  have hNat2 : T ≤ (T / 3600) * 3600 + (T % 3600 / 60) * 60 + 59 := by omega
  have hsv0 : 0 ≤ sv := by
    rw [hsv]
    have : (((T / 3600) * 3600 + (T % 3600 / 60) * 60 : ℕ) : ℚ) ≤ (T : ℚ) := by
      exact_mod_cast hNat1
    push_cast at this
    linarith
  have hsv60 : sv < 60 := by
    rw [hsv]
    have : (T : ℚ) ≤ (((T / 3600) * 3600 + (T % 3600 / 60) * 60 + 59 : ℕ) : ℚ) := by
      exact_mod_cast hNat2
    push_cast at this
    linarith
  have hsv1000a : (0 : ℚ) ≤ sv * 1000 :=
    mul_nonneg hsv0 (by norm_num)
  have hsv1000b : sv * 1000 < 60000 := by
    calc sv * 1000 < 60 * 1000 := by
          exact mul_lt_mul_of_pos_right hsv60 (by norm_num)
      _ = 60000 := by norm_num
  have hrnd0 : 0 ≤ round (sv * 1000) := by
    rw [round_eq]
    have h1 : (0 : ℚ) ≤ sv * 1000 + 1 / 2 := by linarith
    exact Int.floor_nonneg.mpr h1
  have hrnd : round (sv * 1000) ≤ 60000 := by
    rw [round_eq]
    have h1 : sv * 1000 + 1 / 2 < 60001 := by linarith
    have h2 : ⌊sv * 1000 + 1 / 2⌋ < 60001 := Int.floor_lt.mpr (by exact_mod_cast h1)
    omega
  set ms := (round (sv * 1000)).toNat with hms
  have hms60 : ms ≤ 60000 := by omega
  have hsi : ms / 1000 < 100 := by omega
  have hfr : ms % 1000 < 1000 := by omega
  have hlenA : (padZeros 2 (natDigits (T / 3600))).length = 2 :=
    padZeros_length 2 _ (natDigits_len_le2 _ hh)
  have hlenB : (padZeros 2 (natDigits (T % 3600 / 60))).length = 2 :=
    padZeros_length 2 _ (natDigits_len_le2 _ (by omega))
  have hlenC : (padZeros 2 (natDigits (ms / 1000))).length = 2 :=
    padZeros_length 2 _ (natDigits_len_le2 _ hsi)
  have hlenD : (padZeros 3 (natDigits (ms % 1000))).length = 3 :=
    padZeros_length 3 _ (natDigits_len_le3 _ hfr)
  obtain ⟨a1, a2, hA⟩ := List.length_eq_two.mp hlenA
  obtain ⟨b1, b2, hB⟩ := List.length_eq_two.mp hlenB
  obtain ⟨c1, c2, hC⟩ := List.length_eq_two.mp hlenC
  obtain ⟨d1, d2, d3, hD⟩ := List.length_eq_three.mp hlenD
  rw [hA, hB, hC, hD]
  refine ⟨by simp, by simp, by simp, by simp⟩

lemma tsSRT_shape (t : ℚ) (h0 : 0 ≤ t) (hlt : t < 360000) :
    (tsSRT t).length = 12 ∧ (tsSRT t)[8]? = some ',' ∧ '.' ∉ tsSRT t := by
  obtain ⟨hlen, _, _, h8⟩ := tsVTT_shape t h0 hlt
  refine ⟨?_, ?_, ?_⟩
  · simp [tsSRT, hlen]
  · simp only [tsSRT, List.getElem?_map, h8]
    rfl
  · intro hmem
    simp only [tsSRT, List.mem_map] at hmem
    obtain ⟨c, _, hc⟩ := hmem
    by_cases h : c = '.'
    · rw [if_pos h] at hc
      exact absurd hc (by decide)
    · rw [if_neg h] at hc
      exact h hc

lemma segmentsToCues_map_idx (segs : List Segment) (mc ml : ℕ) :
    (segmentsToCues segs mc ml).map Cue.Idx
      = List.range' 1 (segmentsToCues segs mc ml).length := by
  simp only [segmentsToCues, mergeShortCues]
  by_cases h : (segToCueAux mc ml segs 1).length < 2
  · rw [if_pos h]
    exact segToCueAux_idx mc ml segs 1
  · rw [if_neg h]
    rw [reindexAux_idx, reindexAux_length]

/-- C7: output format shape.  `writeVTT` output always starts with the
literal "WEBVTT\n\n"; a VTT cue block does not depend on the cue's index;
an SRT cue block starts with the cue's decimal index on its own line; for
non-negative times below 100 hours the timestamp text has the shape
HH:MM:SS.mmm (twelve characters, colons at positions 2 and 5, '.' at
position 8), and the SRT variant uses ',' instead of '.' at position 8 and
contains no '.'; and for every pipeline-produced non-empty cue list the
SRT output starts with "1\n". -/
theorem C7_output_format :
    (∀ cues : List Cue, (("WEBVTT\n\n").toList).isPrefixOf (writeVTT cues) = true) ∧
    (∀ (n m : ℕ) (st en : ℚ) (ls : List Str) (raw : Str),
      cueBlockVTT ⟨n, st, en, ls, raw⟩ = cueBlockVTT ⟨m, st, en, ls, raw⟩) ∧
    (∀ c : Cue, (natDigits c.Idx ++ ['\n']).isPrefixOf (cueBlockSRT c) = true) ∧
    (∀ t : ℚ, 0 ≤ t → t < 360000 →
      ((tsVTT t).length = 12 ∧ (tsVTT t)[2]? = some ':' ∧
        (tsVTT t)[5]? = some ':' ∧ (tsVTT t)[8]? = some '.') ∧
      ((tsSRT t).length = 12 ∧ (tsSRT t)[8]? = some ',' ∧ '.' ∉ tsSRT t)) ∧
    (∀ (segs : List Segment) (mc ml : ℕ), segmentsToCues segs mc ml ≠ [] →
      (['1', '\n']).isPrefixOf (writeSRT (segmentsToCues segs mc ml)) = true) := by
  refine ⟨?_, ?_, ?_, ?_, ?_⟩
  · intro cues
    rw [List.isPrefixOf_iff_prefix, writeVTT]
    exact List.prefix_append _ _
  · intro n m st en ls raw
    rfl
  · intro c
    rw [List.isPrefixOf_iff_prefix, cueBlockSRT]
    refine ⟨tsSRT c.Start ++ (" --> ").toList ++ tsSRT c.End ++ '\n' ::
      ((c.Lines.map (fun l => l ++ ['\n'])).flatten ++ ['\n']), ?_⟩
    simp
  · intro t h0 hlt
    exact ⟨tsVTT_shape t h0 hlt, tsSRT_shape t h0 hlt⟩
  · intro segs mc ml hne
    obtain ⟨c0, rest, hcr⟩ := List.exists_cons_of_ne_nil hne
    have hidx := segmentsToCues_map_idx segs mc ml
    rw [hcr] at hidx
    simp only [List.map_cons, List.length_cons, range'_succ_one] at hidx
    have hc0 : c0.Idx = 1 := by
      have := congrArg List.head? hidx
      simpa using this
    rw [List.isPrefixOf_iff_prefix, hcr, writeSRT]
    simp only [List.map_cons, List.flatten_cons, cueBlockSRT, hc0,
      natDigits_lt10 1 (by omega)]
    have hd1 : digitChar 1 = '1' := by decide
    rw [hd1]
    simp only [List.cons_append, List.nil_append, List.append_assoc]
    exact ⟨_, rfl⟩

/-- C7 witness: the timestamp shape at the concrete time 61 s and the
"1\n" SRT prefix for the cue list built from one segment. -/
theorem C7_output_format_witness :
    ((0 : ℚ) ≤ 61 ∧ (61 : ℚ) < 360000 ∧
      segmentsToCues [⟨0, 1, ("hi").toList⟩] 42 2 ≠ []) ∧
    (((tsVTT 61).length = 12 ∧ (tsVTT 61)[2]? = some ':' ∧
        (tsVTT 61)[5]? = some ':' ∧ (tsVTT 61)[8]? = some '.') ∧
      ((tsSRT 61).length = 12 ∧ (tsSRT 61)[8]? = some ',' ∧ '.' ∉ tsSRT 61)) ∧
    (['1', '\n']).isPrefixOf
        (writeSRT (segmentsToCues [⟨0, 1, ("hi").toList⟩] 42 2)) = true := by
  have hne : segmentsToCues [⟨0, 1, ("hi").toList⟩] 42 2 ≠ [] := by decide
  exact ⟨⟨by decide, by decide, hne⟩,
    C7_output_format.2.2.2.1 61 (by decide) (by decide),
    C7_output_format.2.2.2.2 [⟨0, 1, ("hi").toList⟩] 42 2 hne⟩
